import Mathlib

/-!
Shallow embedding of the skin-weight transfer tool `proximity_skin_baker.py`.

Python strings are modelled as `List Char`.  Python's `str.split` on a
single-character separator is `splitc`, `str.join` is `joinc`, and
`str.split` on an arbitrary non-empty separator string (used by
`build_path_from_root`, which splits a full path on the root path) is
`pySplit`.  A Python expression that raises (`ValueError` from unpacking,
`IndexError` from `[0]` on an empty list, `TypeError` from `sorted(None)`)
is modelled by `Option` with `none` for the raised error.

Maya host primitives are external collaborators (spec section 6): scene
attribute queries are an opaque record of functions (`SceneAttrs`), node
listing / relative listing results are inputs, node deletion and
namespace removal act on an explicit `Scene` record, and the skin-cluster
weight read/write primitives act on a `SkinClusterNode` record.  Weight
values are only ever moved, never computed with, so they are modelled
as exact rationals.
-/

/-! ### Python string primitives -/

/-- Python `s.split(c)` for a single-character separator `c`:
the list of maximal `c`-free chunks, keeping empty chunks. -/
def splitc (c : Char) : List Char → List (List Char)
  | [] => [[]]
  | x :: xs =>
    if x = c then [] :: splitc c xs
    else (splitc c xs).modifyHead (fun t => x :: t)

/-- Python `c.join(parts)` for a single-character separator. -/
def joinc (c : Char) : List (List Char) → List Char
  | [] => []
  | [x] => x
  | x :: y :: r => x ++ c :: joinc c (y :: r)

/-- Renders segments as a Maya-style path fragment: every segment is
preceded by the separator, e.g. `tagRender '|' [a, b] = "|a|b"`. -/
def tagRender (c : Char) : List (List Char) → List Char
  | [] => []
  | s :: r => c :: s ++ tagRender c r

theorem splitc_ne_nil (c : Char) (s : List Char) : splitc c s ≠ [] := by
  induction s with
  | nil => simp [splitc]
  | cons x xs ih =>
    simp only [splitc]
    split
    · simp
    · cases h : splitc c xs with
      | nil => exact absurd h ih
      | cons a t => simp [List.modifyHead]

theorem splitc_exists_cons (c : Char) (s : List Char) : ∃ a r, splitc c s = a :: r := by
  cases h : splitc c s with
  | nil => exact absurd h (splitc_ne_nil c s)
  | cons a r => exact ⟨a, r, rfl⟩

theorem splitc_append (c : Char) (a b : List Char) :
    splitc c (a ++ c :: b) = splitc c a ++ splitc c b := by
  induction a with
  | nil => simp [splitc]
  | cons x xs ih =>
    show splitc c (x :: (xs ++ c :: b)) = splitc c (x :: xs) ++ splitc c b
    by_cases hx : x = c
    · subst hx
      simp only [splitc, if_pos rfl, ih]
      rfl
    · simp only [splitc, if_neg hx, ih]
      obtain ⟨hh, tt, h⟩ := splitc_exists_cons c xs
      rw [h]
      rfl

theorem splitc_of_not_mem (c : Char) (s : List Char) (h : c ∉ s) : splitc c s = [s] := by
  induction s with
  | nil => rfl
  | cons x xs ih =>
    simp only [List.mem_cons, not_or] at h
    have hx : ¬x = c := fun hh => h.1 hh.symm
    simp only [splitc, if_neg hx, ih h.2, List.modifyHead]

theorem joinc_splitc (c : Char) (s : List Char) : joinc c (splitc c s) = s := by
  induction s with
  | nil => rfl
  | cons x xs ih =>
    by_cases hx : x = c
    · subst hx
      simp only [splitc, if_pos rfl]
      cases h : splitc x xs with
      | nil => exact absurd h (splitc_ne_nil x xs)
      | cons a t =>
        rw [h] at ih
        simp only [joinc, List.nil_append]
        rw [ih]
    · simp only [splitc, if_neg hx]
      cases h : splitc c xs with
      | nil => exact absurd h (splitc_ne_nil c xs)
      | cons a t =>
        rw [h] at ih
        cases t with
        | nil =>
          simp only [List.modifyHead, joinc] at ih ⊢
          rw [ih]
        | cons u t2 =>
          simp only [List.modifyHead, joinc, List.cons_append] at ih ⊢
          rw [← ih]

theorem joinc_cons_tagRender (c : Char) (x : List Char) (r : List (List Char)) :
    joinc c (x :: r) = x ++ tagRender c r := by
  induction r generalizing x with
  | nil => simp [joinc, tagRender]
  | cons y r2 ih =>
    simp only [joinc, tagRender, ih y]
    simp

theorem tagRender_append (c : Char) (a b : List (List Char)) :
    tagRender c (a ++ b) = tagRender c a ++ tagRender c b := by
  induction a with
  | nil => rfl
  | cons s r ih => simp [tagRender, ih]

theorem splitc_seg_tagRender (c : Char) (s : List Char) (r : List (List Char))
    (hs : c ∉ s) (hr : ∀ t ∈ r, c ∉ t) :
    splitc c (s ++ tagRender c r) = s :: r := by
  induction r generalizing s with
  | nil => simpa [tagRender] using splitc_of_not_mem c s hs
  | cons y r2 ih =>
    have : s ++ tagRender c (y :: r2) = s ++ c :: (y ++ tagRender c r2) := by
      simp [tagRender]
    rw [this, splitc_append, splitc_of_not_mem c s hs,
      ih y (hr y (by simp)) (fun t ht => hr t (by simp [ht]))]
    rfl

theorem splitc_tagRender (c : Char) (r : List (List Char)) (hr : ∀ t ∈ r, c ∉ t) :
    splitc c (tagRender c r) = [] :: r := by
  cases r with
  | nil => rfl
  | cons s r2 =>
    have : tagRender c (s :: r2) = [] ++ c :: (s ++ tagRender c r2) := by
      simp [tagRender]
    rw [this, splitc_append,
      splitc_seg_tagRender c s r2 (hr s (by simp)) (fun t ht => hr t (by simp [ht]))]
    rfl

theorem mem_splitc_subset (c : Char) (s : List Char) :
    ∀ t ∈ splitc c s, ∀ x ∈ t, x ∈ s := by
  induction s with
  | nil =>
    intro t ht x hx
    simp only [splitc, List.mem_singleton] at ht
    subst ht
    simp at hx
  | cons y ys ih =>
    intro t ht x hx
    by_cases hy : y = c
    · simp only [splitc, if_pos hy, List.mem_cons] at ht
      rcases ht with rfl | ht
      · simp at hx
      · exact List.mem_cons_of_mem y (ih t ht x hx)
    · simp only [splitc, if_neg hy] at ht
      obtain ⟨a, r, h⟩ := splitc_exists_cons c ys
      rw [h] at ht
      simp only [List.modifyHead, List.mem_cons] at ht
      rcases ht with rfl | ht
      · rcases List.mem_cons.mp hx with rfl | hx2
        · simp
        · exact List.mem_cons_of_mem y (ih a (by rw [h]; simp) x hx2)
      · exact List.mem_cons_of_mem y (ih t (by rw [h]; simp [ht]) x hx)

theorem mem_joinc (c : Char) (l : List (List Char)) :
    ∀ x ∈ joinc c l, x = c ∨ ∃ t ∈ l, x ∈ t := by
  induction l with
  | nil => intro x hx; simp [joinc] at hx
  | cons a r ih =>
    intro x hx
    cases r with
    | nil =>
      simp only [joinc] at hx
      exact Or.inr ⟨a, by simp, hx⟩
    | cons b r2 =>
      simp only [joinc, List.mem_append, List.mem_cons] at hx
      rcases hx with hx | hx | hx
      · exact Or.inr ⟨a, by simp, hx⟩
      · exact Or.inl hx
      · rcases ih x hx with h | ⟨t, ht, hxt⟩
        · exact Or.inl h
        · exact Or.inr ⟨t, by simp [List.mem_cons.mp ht], hxt⟩

theorem splitc_joinc (c : Char) (parts : List (List Char)) (hne : parts ≠ [])
    (hfree : ∀ t ∈ parts, c ∉ t) :
    splitc c (joinc c parts) = parts := by
  induction parts with
  | nil => exact absurd rfl hne
  | cons p r ih =>
    cases r with
    | nil => simpa [joinc] using splitc_of_not_mem c p (hfree p (by simp))
    | cons p2 r2 =>
      simp only [joinc]
      rw [splitc_append, splitc_of_not_mem c p (hfree p (by simp)),
        ih (by simp) (fun t ht => hfree t (by simp [List.mem_cons.mp ht]))]
      rfl

/-! ### Python `str.split` on an arbitrary non-empty separator string -/

/-- Leftmost occurrence of `sep` in `s`: returns the part before the
occurrence and the part after it, or `none` when `sep` does not occur.
Only meaningful for non-empty `sep` (the embedded code never splits on
an empty separator). -/
def splitAtFirst (sep : List Char) : List Char → Option (List Char × List Char)
  | [] => none
  | x :: xs =>
    if sep <+: (x :: xs) then some ([], (x :: xs).drop sep.length)
    else
      match splitAtFirst sep xs with
      | none => none
      | some (pre, post) => some (x :: pre, post)

/-- Fuelled worker for `pySplit`. -/
def pySplitGo (sep : List Char) : Nat → List Char → List (List Char)
  | 0, s => [s]
  | Nat.succ fuel, s =>
    match splitAtFirst sep s with
    | none => [s]
    | some (pre, post) => pre :: pySplitGo sep fuel post

/-- Python `s.split(sep)` for a non-empty separator string `sep`
(Python rejects an empty separator; the `sep = []` case here is a
guard that is never exercised by the embedded code). -/
def pySplit (sep s : List Char) : List (List Char) :=
  if sep = [] then [s] else pySplitGo sep (s.length + 1) s

theorem splitAtFirst_post_lt (sep : List Char) (hsep : sep ≠ []) :
    ∀ s pre post, splitAtFirst sep s = some (pre, post) → post.length < s.length := by
  intro s
  induction s with
  | nil => intro pre post h; simp [splitAtFirst] at h
  | cons x xs ih =>
    intro pre post h
    simp only [splitAtFirst] at h
    split at h
    · injection h with h2
      have hpost : post = (x :: xs).drop sep.length := congrArg Prod.snd h2.symm
      have hseplen : 0 < sep.length := List.length_pos.mpr hsep
      rw [hpost, List.length_drop]
      have : 0 < (x :: xs).length := by simp
      omega
    · cases hx : splitAtFirst sep xs with
      | none => rw [hx] at h; exact absurd h (by simp)
      | some pq =>
        obtain ⟨p2, q2⟩ := pq
        rw [hx] at h
        simp only [Option.some.injEq] at h
        have hq : post = q2 := congrArg Prod.snd h.symm
        have := ih p2 q2 hx
        rw [hq]
        simp only [List.length_cons]
        omega

theorem pySplitGo_fuel_congr (sep : List Char) (hsep : sep ≠ []) :
    ∀ f s g, s.length < f → s.length < g → pySplitGo sep f s = pySplitGo sep g s := by
  intro f
  induction f with
  | zero => intro s g hf; omega
  | succ f ih =>
    intro s g hf hg
    cases g with
    | zero => omega
    | succ g =>
      show pySplitGo sep (Nat.succ f) s = pySplitGo sep (Nat.succ g) s
      simp only [pySplitGo]
      cases hx : splitAtFirst sep s with
      | none => rfl
      | some pq =>
        obtain ⟨pre, post⟩ := pq
        have hlt := splitAtFirst_post_lt sep hsep s pre post hx
        show pre :: pySplitGo sep f post = pre :: pySplitGo sep g post
        rw [ih post g (by omega) (by omega)]

theorem splitAtFirst_self_append (sep rest : List Char) (hsep : sep ≠ []) :
    splitAtFirst sep (sep ++ rest) = some ([], rest) := by
  cases sep with
  | nil => exact absurd rfl hsep
  | cons c sep2 =>
    have hpre : (c :: sep2) <+: (c :: (sep2 ++ rest)) := ⟨rest, by simp⟩
    show splitAtFirst (c :: sep2) (c :: (sep2 ++ rest)) = some ([], rest)
    simp only [splitAtFirst, if_pos hpre]
    have hdrop : (c :: (sep2 ++ rest)) = (c :: sep2) ++ rest := by simp
    rw [hdrop, List.drop_left]

theorem pySplit_self_append (sep rest : List Char) (hsep : sep ≠ []) :
    pySplit sep (sep ++ rest) = [] :: pySplit sep rest := by
  unfold pySplit
  rw [if_neg hsep, if_neg hsep]
  have h1 : pySplitGo sep ((sep ++ rest).length + 1) (sep ++ rest)
      = [] :: pySplitGo sep ((sep ++ rest).length) rest := by
    show pySplitGo sep (Nat.succ ((sep ++ rest).length)) (sep ++ rest) = _
    simp only [pySplitGo, splitAtFirst_self_append sep rest hsep]
  rw [h1]
  have hsl : 0 < sep.length := List.length_pos.mpr hsep
  have h2 : rest.length < (sep ++ rest).length := by
    simp only [List.length_append]
    omega
  rw [pySplitGo_fuel_congr sep hsep ((sep ++ rest).length) rest (rest.length + 1) h2 (by omega)]


/-! ### Lexicographic order on paths -/

theorem lt_append_cons (a : List Char) (x : Char) (t : List Char) : a < a ++ x :: t := by
  show List.Lex (· < ·) a (a ++ x :: t)
  induction a with
  | nil => exact List.Lex.nil
  | cons y a2 ih => exact List.Lex.cons ih

theorem exists_earlier_of_sorted {L : List (List Char)} (hs : List.Sorted (· ≤ ·) L)
    {p q : List Char} (hq : q ∈ L) {i : Nat} (hi : i < L.length) (hp : L[i] = p)
    (hlt : q < p) : ∃ j, ∃ hj : j < L.length, j < i ∧ L[j] = q := by
  obtain ⟨j, hj, hLj⟩ := List.mem_iff_getElem.mp hq
  refine ⟨j, hj, ?_, hLj⟩
  by_contra hge
  push_neg at hge
  rcases Nat.lt_or_ge i j with hij | hij
  · have hrel := List.Sorted.rel_get_of_lt hs (a := ⟨i, hi⟩) (b := ⟨j, hj⟩) hij
    simp only [List.get_eq_getElem] at hrel
    rw [hp, hLj] at hrel
    exact absurd hrel (not_le.mpr hlt)
  · have hji : j = i := by omega
    subst hji
    rw [hp] at hLj
    rw [hLj] at hlt
    exact absurd hlt (lt_irrefl q)

/-! ### The embedded module: data model and operations

Translated from `proximity_skin_baker.py`.  Function and field names
follow the source (including the source's `weilghts` spelling). -/

/-- Source: `NAMESPACE = "proximity_bake"`. -/
def NAMESPACE : List Char := "proximity_bake".toList

/-- Host scene-attribute queries used by `get_joint_data`
(`mc.xform`/`mc.getAttr`): an opaque assignment of attribute values to
full path names, per spec section 6 (scene query primitives). -/
structure SceneAttrs where
  xform_ws_t : List Char → ℚ × ℚ × ℚ
  attr_r : List Char → ℚ × ℚ × ℚ
  attr_jo : List Char → ℚ × ℚ × ℚ
  attr_ro : List Char → ℤ
  attr_radi : List Char → ℚ

/-- Source: dataclass `Joint`. -/
structure Joint where
  name : List Char
  world_position : ℚ × ℚ × ℚ
  rotate : ℚ × ℚ × ℚ
  joint_orient : ℚ × ℚ × ℚ
  rotate_order : ℤ
  radius : ℚ
  parent_path : Option (List Char) := none
deriving DecidableEq

/-- Source: `get_joint_data(joint_path)`.  The name is
`joint_path.split("|")[-1]`; the attribute values come from the host
scene queries. -/
def get_joint_data (q : SceneAttrs) (joint_path : List Char) : Joint :=
  { name := (splitc '|' joint_path).getLastD []
    world_position := q.xform_ws_t joint_path
    rotate := q.attr_r joint_path
    joint_orient := q.attr_jo joint_path
    rotate_order := q.attr_ro joint_path
    radius := q.attr_radi joint_path }

/-- Source: `build_path_from_root(path, root_path)`.
`root = root_path.split("|")[-1]`; `_, current_path = path.split(root_path)`
raises `ValueError` (modelled as `none`) unless the split yields exactly
two parts; the result is `f"|{root}{current_path}"`. -/
def build_path_from_root (path root_path : List Char) : Option (List Char) :=
  let root := (splitc '|' root_path).getLastD []
  match pySplit root_path path with
  | [_, current_path] => some ('|' :: (root ++ current_path))
  | _ => none

/-- Sequential option-mapper: models a Python `for` loop that raises on
the first failing iteration. -/
def mapOptAll (f : α → Option β) : List α → Option (List β)
  | [] => some []
  | x :: xs =>
    match f x, mapOptAll f xs with
    | some y, some ys => some (y :: ys)
    | _, _ => none

/-- Source: `get_skeleton_data(root_joint_path)`.

Host inputs: `ls_result` is the value of `mc.ls(root_joint_path, l=True)`
(the code indexes `[0]`, an `IndexError` — `none` — when empty) and
`child_joints` is the value of
`mc.listRelatives(root, ad=True, type="joint", f=True)`; Maya returns a
non-list `None` when there are no descendant joints, modelled as `none`,
on which the code's `sorted(...)` raises `TypeError` (`none` result).
Descendants are sorted by their full path strings (Python `sorted`,
lexicographic by code point); for each, `parent_path` is
`"|".join(current_path.split("|")[:-1])`. -/
def get_skeleton_data (q : SceneAttrs) (ls_result : List (List Char))
    (child_joints : Option (List (List Char))) : Option (List Joint) :=
  match ls_result with
  | [] => none
  | root_joint_path :: _ =>
    match child_joints with
    | none => none
    | some cj =>
      let sorted_children := List.insertionSort (· ≤ ·) cj
      match mapOptAll (fun joint_path =>
          match build_path_from_root joint_path root_joint_path with
          | none => none
          | some current_path =>
            some { get_joint_data q joint_path with
                   parent_path := some (joinc '|' ((splitc '|' current_path).dropLast)) })
          sorted_children with
      | none => none
      | some rest => some (get_joint_data q root_joint_path :: rest)

/-- The full relative path a `Joint` record denotes: its `parent_path`
(when present) extended by its own name, `"|name"` for the root record. -/
def identityPath (j : Joint) : List Char :=
  match j.parent_path with
  | none => '|' :: j.name
  | some p => p ++ '|' :: j.name

/-- Source: dataclass `Skin` (the `weilghts` spelling is the source's). -/
structure Skin where
  influence_objects : List (List Char)
  weilghts : List ℚ

/-- A live skinCluster binding object, as seen through the host
primitives the source uses: its ordered influence list
(`MFnSkinCluster.influenceObjects`, full path names) and its flat
vertex-major weight matrix over the full vertex set
(`MFnSkinCluster.getWeights` on `vtx[*]`). -/
structure SkinClusterNode where
  influence_objects : List (List Char)
  weights : List ℚ

/-- Source: `get_skin_data(skin_node, geom)`: reads the ordered
influence list and the full flat weight matrix of the binding. -/
def get_skin_data (node : SkinClusterNode) : Skin :=
  { influence_objects := node.influence_objects, weilghts := node.weights }

/-- Position of the first occurrence of `c` in a list of influence
indices (used to model `MFnSkinCluster.setWeights`). -/
def idxOfNat (c : Nat) : List Nat → Option Nat
  | [] => none
  | x :: xs => if x = c then some 0 else (idxOfNat c xs).map (fun j => j + 1)

/-- Host primitive `MFnSkinCluster.setWeights(geom, all-vertex components,
inf_indices, vals, normalize=False)` on a binding whose influence count is
`K` and whose current flat weight matrix is `old`: for vertex `v` and
influence index `c` listed at position `j` of `inf_indices`, the new
weight is `vals[v * len(inf_indices) + j]`; unlisted influences keep
their old weight, and no normalization is applied. -/
def setWeightsFlat (K : Nat) (old : List ℚ) (inf_indices : List Nat) (vals : List ℚ) :
    List ℚ :=
  List.ofFn (fun p : Fin old.length =>
    match idxOfNat ((p : Nat) % K) inf_indices with
    | some j => vals.getD ((p : Nat) / K * inf_indices.length + j) old[p]
    | none => old[p])

/-- Source: `set_skin(skin_data, skin_node)`: builds the contiguous
influence index list `[0, 1, ..., len(skin_data.influence_objects) - 1]`
and writes `skin_data.weilghts` over the node's full vertex set with a
non-normalized `setWeights`. -/
def set_skin (skin_data : Skin) (node : SkinClusterNode) : SkinClusterNode :=
  let inf_indices := List.range skin_data.influence_objects.length
  { node with
    weights := setWeightsFlat node.influence_objects.length node.weights
      inf_indices skin_data.weilghts }

/-- The live scene as the cleanup operation sees it: the result of
`mc.ls()` (all node names) and of `mc.namespaceInfo(lon=True, r=True)`
(all namespace names, recursively). -/
structure Scene where
  nodes : List (List Char)
  namespaces : List (List Char)
deriving DecidableEq

/-- The node/namespace filter string `f"{NAMESPACE}:"`. -/
def scopeTag : List Char := NAMESPACE ++ [':']

/-- Source: `cleanup()`: collects every node whose name starts with
`f"{NAMESPACE}:"` and deletes them in one batch (`mc.delete`, modelled
per spec section 6 as removing exactly the listed nodes); then lists all
namespaces starting with `f"{NAMESPACE}:"`, sorts them by length
descending, and removes each (`mc.namespace(rm=...)`). -/
def cleanup (s : Scene) : Scene :=
  let deleted_nodes := s.nodes.filter (fun n => decide (scopeTag <+: n))
  let nodes_after := s.nodes.filter (fun n => !(decide (n ∈ deleted_nodes)))
  let namespaces_to_remove :=
    List.insertionSort (fun a b : List Char => b.length ≤ a.length)
      (s.namespaces.filter (fun n => decide (scopeTag <+: n)))
  let namespaces_after :=
    namespaces_to_remove.foldl
      (fun acc ns => acc.filter (fun m => !(decide (m = ns)))) s.namespaces
  { nodes := nodes_after, namespaces := namespaces_after }

/-- The argument record of the `mc.bakeDeformer` host call in
`SkinBaker._bake`: source mesh, source skeleton root, destination mesh,
destination skeleton root, max influences. -/
structure BakeDeformerArgs where
  sm : List Char
  ss : List Char
  dm : List Char
  ds : List Char
  mi : Int
deriving DecidableEq

/-- Source: `SkinBaker._bake`, the `bakeDeformer` invocation: with `root`
and `target` read from the UI fields, it sets
`source_root = f"{NAMESPACE}:{root.split('|')[-1]}"`,
`source_geom = f"{NAMESPACE}:{target.split('|')[-1]}"`, and calls
`mc.bakeDeformer(sm=source_geom, ss=source_root, dm=target,
ds=source_root, mi=influence_number)`. -/
def mkBakeDeformerArgs (root target : List Char) (influence_number : Int) :
    BakeDeformerArgs :=
  let source_root := NAMESPACE ++ ':' :: (splitc '|' root).getLastD []
  let source_geom := NAMESPACE ++ ':' :: (splitc '|' target).getLastD []
  { sm := source_geom, ss := source_root, dm := target, ds := source_root,
    mi := influence_number }

/-- Source: `":".join(p.split(":")[1:])` — drops the first
colon-separated component of a path segment. -/
def stripFirstQualifier (p : List Char) : List Char :=
  joinc ':' ((splitc ':' p).drop 1)

/-- Source: `SkinBaker._bake`, remap step: from a raw influence path it
builds `parts = [":".join(p.split(":")[1:]) for p in inf.split("|") if p]`
and the wildcard pattern `f"*|{'|'.join(parts)}"`. -/
def remapInfluence (inf : List Char) : List Char :=
  let parts := ((splitc '|' inf).filter (fun p => !p.isEmpty)).map stripFirstQualifier
  '*' :: '|' :: joinc '|' parts

/-- Source: `SkinBaker._bake`, remap loop over
`skin_data.influence_objects` (appends in iteration order). -/
def remapInfluences (raw : List (List Char)) : List (List Char) :=
  raw.map remapInfluence

/-! ### Helper lemmas about the remap step and last segments -/

theorem stripFirstQualifier_no_bar {s : List Char} (hs : '|' ∉ s) :
    '|' ∉ stripFirstQualifier s := by
  intro hx
  rcases mem_joinc ':' _ '|' hx with hc | ⟨t, ht, hxt⟩
  · exact absurd hc (by decide)
  · exact hs (mem_splitc_subset ':' s t (List.mem_of_mem_drop ht) '|' hxt)

theorem stripFirstQualifier_of_no_colon {s : List Char} (hs : ':' ∉ s) :
    stripFirstQualifier s = [] := by
  unfold stripFirstQualifier
  rw [splitc_of_not_mem ':' s hs]
  rfl

theorem stripFirstQualifier_qualified (ns nm : List Char) (h1 : ':' ∉ ns) (h2 : ':' ∉ nm) :
    stripFirstQualifier (ns ++ ':' :: nm) = nm := by
  unfold stripFirstQualifier
  rw [splitc_append, splitc_of_not_mem ':' ns h1, splitc_of_not_mem ':' nm h2]
  rfl

theorem remapInfluence_tagRender (segs : List (List Char))
    (hfree : ∀ s ∈ segs, '|' ∉ s) (hne : ∀ s ∈ segs, s ≠ []) :
    remapInfluence (tagRender '|' segs)
      = '*' :: '|' :: joinc '|' (segs.map stripFirstQualifier) := by
  unfold remapInfluence
  rw [splitc_tagRender '|' segs hfree]
  have h2 : ∀ s ∈ segs, (!s.isEmpty) = true := by
    intro s hs
    cases s with
    | nil => exact absurd rfl (hne [] hs)
    | cons a t => rfl
  have h1 : ((([] : List Char) :: segs).filter (fun p => !p.isEmpty)) = segs := by
    rw [List.filter_cons]
    simp only [List.isEmpty_nil, Bool.not_true, if_false]
    exact List.filter_eq_self.mpr h2
  rw [h1]

/-! ### Claim C1: the bakeDeformer invocation -/

/-- C1 (counterexample): with root `"|root"` and target `"|target"` read
from the UI, the destination-skeleton argument of the bake primitive is
the namespaced `"proximity_bake:root"`, not the real (non-namespaced)
root joint as the claim states. -/
theorem c1_counterexample :
    (mkBakeDeformerArgs "|root".toList "|target".toList 10).ds ≠ "|root".toList
    ∧ (mkBakeDeformerArgs "|root".toList "|target".toList 10).ds
        = "proximity_bake:root".toList := by
  decide

/-- C1 (amended): the bake primitive is invoked with the namespaced
duplicate of the target mesh (named after the target's short name) as the
driven source mesh, the namespaced root joint as the driven skeleton, the
real target mesh as the destination mesh, the namespaced root joint again
— not the real one — as the destination skeleton, and the
caller-specified maximum influence count. -/
theorem c1_bake_invocation (ra rb ta tb : List Char) (n : Int)
    (hrb : '|' ∉ rb) (htb : '|' ∉ tb) :
    mkBakeDeformerArgs (ra ++ '|' :: rb) (ta ++ '|' :: tb) n
      = { sm := NAMESPACE ++ ':' :: tb, ss := NAMESPACE ++ ':' :: rb,
          dm := ta ++ '|' :: tb, ds := NAMESPACE ++ ':' :: rb, mi := n } := by
  have h1 : (splitc '|' (ra ++ '|' :: rb)).getLastD [] = rb := by
    rw [splitc_append, splitc_of_not_mem _ _ hrb, List.getLastD_concat]
  have h2 : (splitc '|' (ta ++ '|' :: tb)).getLastD [] = tb := by
    rw [splitc_append, splitc_of_not_mem _ _ htb, List.getLastD_concat]
  simp only [mkBakeDeformerArgs, h1, h2]

/-- C1 (witness): the amended statement at concrete inputs. -/
theorem c1_bake_invocation_witness :
    ('|' ∉ "rt".toList ∧ '|' ∉ "tg".toList)
    ∧ mkBakeDeformerArgs ([] ++ '|' :: "rt".toList) ([] ++ '|' :: "tg".toList) 5
        = { sm := NAMESPACE ++ ':' :: "tg".toList, ss := NAMESPACE ++ ':' :: "rt".toList,
            dm := [] ++ '|' :: "tg".toList, ds := NAMESPACE ++ ':' :: "rt".toList,
            mi := 5 } :=
  ⟨by decide, c1_bake_invocation [] "rt".toList [] "tg".toList 5 (by decide) (by decide)⟩

/-! ### Claim C5: relative-path computation -/

/-- C5 (counterexample): the joint path `"|a|a|b"` lies strictly inside
the subtree of the root `"|a"`, yet `build_path_from_root` raises
(`ValueError` from unpacking a 3-element split), because the root path
occurs twice as a substring; it does not return a path beginning with
the root's short name. -/
theorem c5_counterexample :
    ("|a|a|b".toList = "|a".toList ++ '|' :: "a|b".toList)
    ∧ build_path_from_root "|a|a|b".toList "|a".toList = none := by
  decide

/-- C5 (amended): for a joint path strictly inside the root's subtree
such that the root path occurs exactly once as a substring of it (the
split yields exactly two parts), the relative-path computation succeeds
and its result begins with `"|"` followed by the root's short name. -/
theorem c5_relative_path (root_path rest : List Char) (hroot : root_path ≠ [])
    (honce : pySplit root_path rest = [rest]) :
    ∃ r, build_path_from_root (root_path ++ rest) root_path = some r
      ∧ ('|' :: (splitc '|' root_path).getLastD []) <+: r := by
  have hb := pySplit_self_append root_path rest hroot
  rw [honce] at hb
  refine ⟨'|' :: ((splitc '|' root_path).getLastD [] ++ rest), ?_, ?_⟩
  · unfold build_path_from_root
    rw [hb]
  · exact ⟨rest, rfl⟩

/-- C5 (witness): the amended statement at concrete inputs. -/
theorem c5_relative_path_witness :
    ("|a".toList ≠ [] ∧ pySplit "|a".toList "|b".toList = ["|b".toList])
    ∧ ∃ r, build_path_from_root ("|a".toList ++ "|b".toList) "|a".toList = some r
        ∧ ('|' :: (splitc '|' "|a".toList).getLastD []) <+: r :=
  ⟨⟨by decide, by decide⟩, c5_relative_path "|a".toList "|b".toList (by decide) (by decide)⟩

/-! ### Claim C6 and claim C10: the remap patterns -/

/-- C6: for raw influence paths all of whose segments are
namespace-qualified (`ns:name` with colon-free `ns` and `name`), the
remap step produces exactly the wildcard-anchored pattern
`"*|" ++ name₁ ++ "|" ++ ... ++ nameₖ`, and the influence order of the
raw binding is preserved (the i-th pattern comes from the i-th raw
path). -/
theorem c6_remap_wildcard (segss : List (List (List Char × List Char)))
    (h : ∀ segs ∈ segss, ∀ p ∈ segs,
        ':' ∉ p.1 ∧ ':' ∉ p.2 ∧ '|' ∉ p.1 ∧ '|' ∉ p.2) :
    remapInfluences (segss.map (fun segs =>
        tagRender '|' (segs.map (fun p => p.1 ++ ':' :: p.2))))
      = segss.map (fun segs => '*' :: '|' :: joinc '|' (segs.map Prod.snd)) := by
  unfold remapInfluences
  rw [List.map_map]
  apply List.map_congr_left
  intro segs hsegs
  have hq := h segs hsegs
  have hfree : ∀ t ∈ segs.map (fun p => p.1 ++ ':' :: p.2), '|' ∉ t := by
    intro t ht hmem
    obtain ⟨p, hp, rfl⟩ := List.mem_map.mp ht
    rcases List.mem_append.mp hmem with h1 | h2
    · exact (hq p hp).2.2.1 h1
    · rcases List.mem_cons.mp h2 with h3 | h4
      · exact absurd h3 (by decide)
      · exact (hq p hp).2.2.2 h4
  have hne : ∀ t ∈ segs.map (fun p => p.1 ++ ':' :: p.2), t ≠ [] := by
    intro t ht
    obtain ⟨p, hp, rfl⟩ := List.mem_map.mp ht
    simp
  show remapInfluence (tagRender '|' (segs.map (fun p => p.1 ++ ':' :: p.2)))
      = '*' :: '|' :: joinc '|' (segs.map Prod.snd)
  rw [remapInfluence_tagRender _ hfree hne, List.map_map]
  have : ∀ p ∈ segs,
      (stripFirstQualifier ∘ fun p => p.1 ++ ':' :: p.2) p = Prod.snd p := by
    intro p hp
    exact stripFirstQualifier_qualified p.1 p.2 (hq p hp).1 (hq p hp).2.1
  rw [List.map_congr_left this]

/-- C6 (witness): the statement at the spec's own example
`"|ns:root|ns:child"`. -/
theorem c6_remap_wildcard_witness :
    (∀ segs ∈ [[("ns".toList, "root".toList), ("ns".toList, "child".toList)]],
      ∀ p ∈ segs, ':' ∉ p.1 ∧ ':' ∉ p.2 ∧ '|' ∉ p.1 ∧ '|' ∉ p.2)
    ∧ remapInfluences
        ([[("ns".toList, "root".toList), ("ns".toList, "child".toList)]].map
          (fun segs => tagRender '|' (segs.map (fun p => p.1 ++ ':' :: p.2))))
      = [[("ns".toList, "root".toList), ("ns".toList, "child".toList)]].map
          (fun segs => '*' :: '|' :: joinc '|' (segs.map Prod.snd)) :=
  ⟨by decide, c6_remap_wildcard _ (by decide)⟩

/-- C10: in the remap step, every path segment has its first
colon-separated component unconditionally dropped; splitting the
produced pattern back on `"|"` gives the wildcard anchor followed by the
per-segment results, and any segment that contains no colon at all is
mapped to the empty string (rather than to its own name). -/
theorem c10_unqualified_segment (segs : List (List Char)) (hne : segs ≠ [])
    (h : ∀ s ∈ segs, s ≠ [] ∧ '|' ∉ s) :
    splitc '|' (remapInfluence (tagRender '|' segs))
        = ['*'] :: segs.map stripFirstQualifier
    ∧ ∀ s ∈ segs, ':' ∉ s → stripFirstQualifier s = [] := by
  constructor
  · rw [remapInfluence_tagRender segs (fun s hs => (h s hs).2) (fun s hs => (h s hs).1)]
    have hsplit : ('*' :: '|' :: joinc '|' (segs.map stripFirstQualifier) : List Char)
        = ['*'] ++ '|' :: joinc '|' (segs.map stripFirstQualifier) := rfl
    rw [hsplit, splitc_append, splitc_of_not_mem '|' ['*'] (by decide),
      splitc_joinc '|' (segs.map stripFirstQualifier)
        (by simpa using hne)
        (by
          intro t ht
          obtain ⟨s, hs, rfl⟩ := List.mem_map.mp ht
          exact stripFirstQualifier_no_bar (h s hs).2)]
    rfl
  · intro s hs hc
    exact stripFirstQualifier_of_no_colon hc

/-- C10 (witness): the statement at the concrete raw path `"|ns:a|plain"`,
whose unqualified segment `"plain"` becomes the empty pattern segment. -/
theorem c10_unqualified_segment_witness :
    (["ns:a".toList, "plain".toList] ≠ ([] : List (List Char))
      ∧ remapInfluence (tagRender '|' ["ns:a".toList, "plain".toList]) = "*|a|".toList)
    ∧ (splitc '|' (remapInfluence (tagRender '|' ["ns:a".toList, "plain".toList]))
          = ['*'] :: ["ns:a".toList, "plain".toList].map stripFirstQualifier
        ∧ ∀ s ∈ ["ns:a".toList, "plain".toList], ':' ∉ s → stripFirstQualifier s = []) :=
  ⟨⟨by decide, by decide⟩, c10_unqualified_segment _ (by decide) (by decide)⟩

/-! ### Claims C7 and C9: root resolution and descendant listing -/

/-- A concrete all-zero scene-attribute assignment, used for closed
instances. -/
def attrsZero : SceneAttrs :=
  { xform_ws_t := fun _ => (0, 0, 0), attr_r := fun _ => (0, 0, 0),
    attr_jo := fun _ => (0, 0, 0), attr_ro := fun _ => 0, attr_radi := fun _ => 0 }

/-- C7 (counterexample): when the root path resolves to two nodes
(`mc.ls` returns two matches), skeleton extraction does not fail: it
silently proceeds with the first match, returning the same result as if
only the first match existed. -/
theorem c7_counterexample :
    (get_skeleton_data attrsZero ["|a|j".toList, "|b|j".toList]
        (some ["|a|j|k".toList])).isSome = true
    ∧ get_skeleton_data attrsZero ["|a|j".toList, "|b|j".toList] (some ["|a|j|k".toList])
        = get_skeleton_data attrsZero ["|a|j".toList] (some ["|a|j|k".toList]) := by
  decide

/-- C7 (amended): skeleton extraction fails when the root path resolves
to zero nodes (`mc.ls(...)[0]` raises `IndexError`); when it resolves to
more than one node, extraction does not fail and does not disambiguate:
it uses the first match and ignores the rest. -/
theorem c7_resolution_behavior (q : SceneAttrs) (cj : Option (List (List Char))) :
    get_skeleton_data q [] cj = none
    ∧ ∀ r rest, get_skeleton_data q (r :: rest) cj = get_skeleton_data q [r] cj :=
  ⟨rfl, fun _ _ => rfl⟩

/-- C9: when the root joint has no descendant joints, the host's
list-relatives query returns a non-list sentinel (`None`, modelled as
`none`), on which the sort step raises; skeleton extraction therefore
errors out instead of returning the one-element sequence containing only
the root joint. -/
theorem c9_no_descendants_error (q : SceneAttrs) (root_ls : List Char)
    (rest : List (List Char)) :
    get_skeleton_data q (root_ls :: rest) none = none := rfl

/-! ### Claims C2 and C8: the cleanup operation -/

theorem foldl_filter_ne (rs : List (List Char)) : ∀ init : List (List Char),
    rs.foldl (fun acc ns => acc.filter (fun m => !(decide (m = ns)))) init
      = init.filter (fun m => !(decide (m ∈ rs))) := by
  induction rs with
  | nil =>
    intro init
    simp
  | cons x rs ih =>
    intro init
    rw [List.foldl_cons, ih, List.filter_filter]
    apply List.filter_congr
    intro m hm
    by_cases h1 : m = x <;> by_cases h2 : m ∈ rs <;> simp [h1, h2]

theorem cleanup_eq (s : Scene) :
    cleanup s
      = { nodes := s.nodes.filter (fun n => !(decide (scopeTag <+: n))),
          namespaces := s.namespaces.filter (fun m => !(decide (scopeTag <+: m))) } := by
  have h1 : s.nodes.filter (fun n =>
        !(decide (n ∈ s.nodes.filter (fun n2 => decide (scopeTag <+: n2)))))
      = s.nodes.filter (fun n => !(decide (scopeTag <+: n))) := by
    apply List.filter_congr
    intro n hn
    by_cases hp : scopeTag <+: n <;> simp [hp, List.mem_filter, hn]
  have h2 : (List.insertionSort (fun a b : List Char => b.length ≤ a.length)
          (s.namespaces.filter (fun n => decide (scopeTag <+: n)))).foldl
        (fun acc ns => acc.filter (fun m => !(decide (m = ns)))) s.namespaces
      = s.namespaces.filter (fun m => !(decide (scopeTag <+: m))) := by
    rw [foldl_filter_ne]
    apply List.filter_congr
    intro m hm
    by_cases hp : scopeTag <+: m <;>
      simp [List.Perm.mem_iff (List.perm_insertionSort _ _), List.mem_filter, hm, hp]
  show Scene.mk
      (s.nodes.filter (fun n =>
        !(decide (n ∈ s.nodes.filter (fun n2 => decide (scopeTag <+: n2))))))
      ((List.insertionSort (fun a b : List Char => b.length ≤ a.length)
          (s.namespaces.filter (fun n => decide (scopeTag <+: n)))).foldl
        (fun acc ns => acc.filter (fun m => !(decide (m = ns)))) s.namespaces)
      = _
  rw [h1, h2]

/-- C2 (counterexample): after `cleanup()` on a scene holding the node
`proximity_bake:j1` and the namespaces `proximity_bake` and
`proximity_bake:sub`, the prefixed node and the nested namespace are
gone, but the reserved namespace `proximity_bake` itself is NOT removed:
it does not start with the filter string `"proximity_bake:"`. -/
theorem c2_counterexample :
    "proximity_bake".toList ∈ (cleanup (Scene.mk ["proximity_bake:j1".toList]
        ["proximity_bake".toList, "proximity_bake:sub".toList])).namespaces
    ∧ (cleanup (Scene.mk ["proximity_bake:j1".toList]
        ["proximity_bake".toList, "proximity_bake:sub".toList])).nodes = []
    ∧ "proximity_bake:sub".toList ∉ (cleanup (Scene.mk ["proximity_bake:j1".toList]
        ["proximity_bake".toList, "proximity_bake:sub".toList])).namespaces := by
  decide

/-- C2 (amended): after `cleanup()` runs, every node whose name starts
with `"proximity_bake:"` has been deleted and every namespace whose name
starts with `"proximity_bake:"` (i.e. every namespace strictly nested
under the reserved scope) has been removed, regardless of what was
created beforehand; but namespaces without that prefix — including the
reserved namespace `proximity_bake` itself — are retained. -/
theorem c2_cleanup_scope (s : Scene) :
    (∀ n ∈ (cleanup s).nodes, ¬(scopeTag <+: n))
    ∧ (∀ m ∈ (cleanup s).namespaces, ¬(scopeTag <+: m))
    ∧ (∀ m ∈ s.namespaces, ¬(scopeTag <+: m) → m ∈ (cleanup s).namespaces) := by
  rw [cleanup_eq]
  refine ⟨?_, ?_, ?_⟩
  · intro n hn
    have h := (List.mem_filter.mp hn).2
    simpa using h
  · intro m hm
    have h := (List.mem_filter.mp hm).2
    simpa using h
  · intro m hm hp
    exact List.mem_filter.mpr ⟨hm, by simpa using hp⟩

/-- C2 (witness): a namespace without the scope filter string survives
cleanup. -/
theorem c2_cleanup_scope_witness :
    "other".toList ∈ (cleanup (Scene.mk ["proximity_bake:a".toList]
        ["other".toList, "proximity_bake:sub".toList])).namespaces :=
  (c2_cleanup_scope _).2.2 "other".toList (by decide) (by decide)

/-- C8: `cleanup()` is idempotent — running it twice leaves exactly the
state one run leaves — and when no node and no namespace carries the
scope filter string it is a no-op that changes nothing (and, the host
deletion/removal primitives being given only listed items, raises no
error). -/
theorem c8_cleanup_idempotent (s : Scene) :
    cleanup (cleanup s) = cleanup s
    ∧ ((∀ n ∈ s.nodes, ¬(scopeTag <+: n)) → (∀ m ∈ s.namespaces, ¬(scopeTag <+: m)) →
        cleanup s = s) := by
  constructor
  · rw [cleanup_eq s, cleanup_eq]
    simp [List.filter_filter]
  · intro h1 h2
    rw [cleanup_eq]
    have hn : s.nodes.filter (fun n => !(decide (scopeTag <+: n))) = s.nodes :=
      List.filter_eq_self.mpr (fun n hn => by simpa using h1 n hn)
    have hm : s.namespaces.filter (fun m => !(decide (scopeTag <+: m))) = s.namespaces :=
      List.filter_eq_self.mpr (fun m hm => by simpa using h2 m hm)
    rw [hn, hm]

/-- C8 (witness): cleanup of a scene with nothing under the scope is the
identity. -/
theorem c8_cleanup_idempotent_witness :
    cleanup (Scene.mk ["pCube1".toList] ["UI".toList])
      = Scene.mk ["pCube1".toList] ["UI".toList] :=
  (c8_cleanup_idempotent _).2 (by decide) (by decide)

/-! ### Claim C3: skin extract/apply round trip -/

theorem idxOfNat_map_succ (c : Nat) (xs : List Nat) :
    idxOfNat (c + 1) (xs.map Nat.succ) = idxOfNat c xs := by
  induction xs with
  | nil => rfl
  | cons x xs ih =>
    simp only [List.map_cons, idxOfNat, ih]
    by_cases hx : x = c
    · rw [if_pos (by omega), if_pos hx]
    · rw [if_neg (by omega), if_neg hx]

theorem idxOfNat_range (c K : Nat) (h : c < K) :
    idxOfNat c (List.range K) = some c := by
  induction K generalizing c with
  | zero => omega
  | succ K ih =>
    rw [List.range_succ_eq_map]
    cases c with
    | zero => rfl
    | succ c2 =>
      simp only [idxOfNat, if_neg (by omega : ¬(0 = c2 + 1)), idxOfNat_map_succ,
        ih c2 (by omega)]
      rfl

/-- C3: extracting a binding with V vertices and K influences and
applying the extracted `Skin` value to a binding object with the same K
influences in the same order reproduces the original weight matrix
exactly: `set_skin` writes against the contiguous influence-index
sequence `[0..K-1]` with a non-normalized write, so every entry of the
target's V x K matrix is overwritten with the corresponding extracted
value.  (The model moves weight values verbatim, so equality of the
modelled rationals is bit-identity of the host's doubles.) -/
theorem c3_skin_roundtrip (node1 node2 : SkinClusterNode) (V K : Nat)
    (hinf : node2.influence_objects = node1.influence_objects)
    (hK : node1.influence_objects.length = K)
    (h1 : node1.weights.length = V * K)
    (h2 : node2.weights.length = V * K) :
    (set_skin (get_skin_data node1) node2).weights = node1.weights := by
  show setWeightsFlat node2.influence_objects.length node2.weights
      (List.range (get_skin_data node1).influence_objects.length)
      (get_skin_data node1).weilghts = node1.weights
  have hgi : (get_skin_data node1).influence_objects = node1.influence_objects := rfl
  have hgw : (get_skin_data node1).weilghts = node1.weights := rfl
  rw [hgi, hgw, hinf, hK]
  unfold setWeightsFlat
  apply List.ext_getElem
  · simp [h1, h2]
  · intro p hp1 hp2
    have hplen : p < node2.weights.length := by simpa using hp1
    have hpVK : p < V * K := by rw [← h2]; exact hplen
    have hKpos : 0 < K := by
      rcases Nat.eq_zero_or_pos K with h0 | h0
      · subst h0; simp at hpVK
      · exact h0
    have hmod : p % K < K := Nat.mod_lt p hKpos
    rw [List.getElem_ofFn]
    simp only [idxOfNat_range (p % K) K hmod]
    have hlen : (List.range K).length = K := List.length_range K
    have hidx : p / K * (List.range K).length + p % K = p := by
      rw [hlen, Nat.mul_comm]
      exact Nat.div_add_mod p K
    rw [hidx]
    have hplt : p < node1.weights.length := by rw [h1]; exact hpVK
    exact List.getD_eq_getElem node1.weights _ hplt

/-- C3 (witness): the round trip at a concrete two-vertex, one-influence
binding. -/
theorem c3_skin_roundtrip_witness :
    ((SkinClusterNode.mk ["|j".toList] [0, 0]).influence_objects
        = (SkinClusterNode.mk ["|j".toList] [1, 1/2]).influence_objects
      ∧ (SkinClusterNode.mk ["|j".toList] [1, 1/2]).influence_objects.length = 1
      ∧ ((SkinClusterNode.mk ["|j".toList] ([1, 1/2] : List ℚ)).weights.length = 2 * 1)
      ∧ ((SkinClusterNode.mk ["|j".toList] ([0, 0] : List ℚ)).weights.length = 2 * 1))
    ∧ (set_skin (get_skin_data (SkinClusterNode.mk ["|j".toList] [1, 1/2]))
          (SkinClusterNode.mk ["|j".toList] [0, 0])).weights
        = (SkinClusterNode.mk ["|j".toList] ([1, 1/2] : List ℚ)).weights :=
  ⟨⟨by decide, by decide, by decide, by decide⟩,
    c3_skin_roundtrip (SkinClusterNode.mk ["|j".toList] [1, 1/2])
      (SkinClusterNode.mk ["|j".toList] [0, 0]) 2 1
      (by decide) (by decide) (by decide) (by decide)⟩

/-! ### Claim C4: skeleton extraction order -/

theorem getLastD_cons_of_ne {α : Type} (x d : α) (l : List α) (h : l ≠ []) :
    (x :: l).getLastD d = l.getLastD d := by
  cases l with
  | nil => exact absurd rfl h
  | cons y ys => simp [List.getLastD]

theorem getLastD_append_of_ne {α : Type} (a b : List α) (d : α) (h : b ≠ []) :
    (a ++ b).getLastD d = b.getLastD d := by
  induction a with
  | nil => rfl
  | cons x xs ih =>
    have hne : xs ++ b ≠ [] := by
      intro hc
      exact h (List.append_eq_nil.mp hc).2
    show ((x :: (xs ++ b)).getLastD d) = b.getLastD d
    rw [getLastD_cons_of_ne x d (xs ++ b) hne, ih]

theorem getLastD_mem {α : Type} (l : List α) (d : α) (h : l ≠ []) : l.getLastD d ∈ l := by
  induction l with
  | nil => exact absurd rfl h
  | cons x xs ih =>
    cases xs with
    | nil => simp [List.getLastD]
    | cons y ys =>
      rw [getLastD_cons_of_ne x d (y :: ys) (by simp)]
      exact List.mem_cons_of_mem x (ih (by simp))

theorem getLastD_eq_getLast {α : Type} (l : List α) (d : α) (h : l ≠ []) :
    l.getLastD d = l.getLast h := by
  conv_lhs => rw [← List.dropLast_append_getLast h]
  rw [List.getLastD_concat]

/-- The last segment of a rendered path is the last given segment. -/
theorem lastSeg_tagRender (segs : List (List Char)) (hne : segs ≠ [])
    (hfree : ∀ s ∈ segs, '|' ∉ s) :
    (splitc '|' (tagRender '|' segs)).getLastD [] = segs.getLastD [] := by
  rw [splitc_tagRender '|' segs hfree]
  exact getLastD_cons_of_ne [] [] segs hne

/-- Sequential option-mapping with everywhere-defined steps succeeds and
maps positionally. -/
theorem mapOptAll_total {α β : Type} (F : α → Option β) (l : List α)
    (h : ∀ x ∈ l, (F x).isSome = true) :
    ∃ out, mapOptAll F l = some out ∧ out.length = l.length ∧
      ∀ i, ∀ hi : i < l.length, ∀ ho : i < out.length, F l[i] = some out[i] := by
  induction l with
  | nil =>
    refine ⟨[], rfl, rfl, ?_⟩
    intro i hi
    simp at hi
  | cons x xs ih =>
    have hx := h x (by simp)
    obtain ⟨y, hy⟩ := Option.isSome_iff_exists.mp hx
    obtain ⟨out, hout, hlen, hidx⟩ := ih (fun z hz => h z (by simp [hz]))
    refine ⟨y :: out, ?_, by simp [hlen], ?_⟩
    · simp only [mapOptAll, hy, hout]
    · intro i hi ho
      cases i with
      | zero => simpa using hy
      | succ i2 =>
        have hi2 : i2 < xs.length := by simpa using hi
        have ho2 : i2 < out.length := by simpa using ho
        simpa using hidx i2 hi2 ho2

/-- The record `get_skeleton_data` builds for the descendant
`rootPath ++ tagRender '|' e` of the root `rootPath = tagRender '|' rsegs`. -/
def childRecord (q : SceneAttrs) (rsegs e : List (List Char)) : Joint :=
  { get_joint_data q (tagRender '|' rsegs ++ tagRender '|' e) with
    parent_path := some (tagRender '|' (rsegs.getLastD [] :: e.dropLast)) }

theorem buildPath_child (rsegs e : List (List Char)) (hr : rsegs ≠ [])
    (hrfree : ∀ s ∈ rsegs, '|' ∉ s)
    (hsplit : pySplit (tagRender '|' rsegs) (tagRender '|' rsegs ++ tagRender '|' e)
        = [[], tagRender '|' e]) :
    build_path_from_root (tagRender '|' rsegs ++ tagRender '|' e) (tagRender '|' rsegs)
      = some (tagRender '|' (rsegs.getLastD [] :: e)) := by
  simp only [build_path_from_root]
  rw [hsplit]
  simp only [lastSeg_tagRender rsegs hr hrfree]
  rfl

theorem parentPath_child (rL : List Char) (e : List (List Char)) (hrL : '|' ∉ rL)
    (hene : e ≠ []) (hefree : ∀ s ∈ e, '|' ∉ s) :
    joinc '|' ((splitc '|' (tagRender '|' (rL :: e))).dropLast)
      = tagRender '|' (rL :: e.dropLast) := by
  have hfree2 : ∀ s ∈ rL :: e, '|' ∉ s := by
    intro s hs
    rcases List.mem_cons.mp hs with rfl | hs2
    · exact hrL
    · exact hefree s hs2
  rw [splitc_tagRender '|' (rL :: e) hfree2]
  cases e with
  | nil => exact absurd rfl hene
  | cons x e2 =>
    rw [List.dropLast_cons₂, List.dropLast_cons₂, joinc_cons_tagRender]
    rfl

theorem identityPath_child (q : SceneAttrs) (rsegs e : List (List Char)) (hr : rsegs ≠ [])
    (hrfree : ∀ s ∈ rsegs, '|' ∉ s) (hene : e ≠ []) (hefree : ∀ s ∈ e, '|' ∉ s) :
    identityPath (childRecord q rsegs e) = tagRender '|' (rsegs.getLastD [] :: e) := by
  have hname : (splitc '|' (tagRender '|' rsegs ++ tagRender '|' e)).getLastD []
      = e.getLastD [] := by
    rw [← tagRender_append]
    rw [lastSeg_tagRender (rsegs ++ e) (by simp [hr]) (by
      intro s hs
      rcases List.mem_append.mp hs with h1 | h2
      · exact hrfree s h1
      · exact hefree s h2)]
    exact getLastD_append_of_ne rsegs e [] hene
  show tagRender '|' (rsegs.getLastD [] :: e.dropLast)
      ++ '|' :: (splitc '|' (tagRender '|' rsegs ++ tagRender '|' e)).getLastD []
      = tagRender '|' (rsegs.getLastD [] :: e)
  rw [hname]
  calc tagRender '|' (rsegs.getLastD [] :: e.dropLast) ++ '|' :: e.getLastD []
      = tagRender '|' (rsegs.getLastD [] :: e.dropLast)
          ++ tagRender '|' [e.getLastD []] := by simp [tagRender]
    _ = tagRender '|' ((rsegs.getLastD [] :: e.dropLast) ++ [e.getLastD []]) := by
        rw [tagRender_append]
    _ = tagRender '|' (rsegs.getLastD [] :: e) := by
        congr 1
        rw [getLastD_eq_getLast e [] hene]
        show rsegs.getLastD [] :: (e.dropLast ++ [e.getLast hene]) = rsegs.getLastD [] :: e
        rw [List.dropLast_append_getLast hene]

theorem identityPath_root (q : SceneAttrs) (rsegs : List (List Char)) (hr : rsegs ≠ [])
    (hrfree : ∀ s ∈ rsegs, '|' ∉ s) :
    identityPath (get_joint_data q (tagRender '|' rsegs))
      = tagRender '|' [rsegs.getLastD []] := by
  show '|' :: (splitc '|' (tagRender '|' rsegs)).getLastD []
      = tagRender '|' [rsegs.getLastD []]
  rw [lastSeg_tagRender rsegs hr hrfree]
  simp [tagRender]

theorem get_skeleton_data_unfold (q : SceneAttrs) (root : List Char)
    (rest : List (List Char)) (cj : List (List Char)) :
    get_skeleton_data q (root :: rest) (some cj)
      = match mapOptAll (fun joint_path =>
            match build_path_from_root joint_path root with
            | none => none
            | some current_path =>
              some { get_joint_data q joint_path with
                     parent_path := some (joinc '|' ((splitc '|' current_path).dropLast)) })
          (List.insertionSort (· ≤ ·) cj) with
        | none => none
        | some rest2 => some (get_joint_data q root :: rest2) := rfl

/-- C4: for a joint hierarchy below the root `tagRender '|' rsegs` whose
descendant joints are the paths `tagRender '|' rsegs ++ tagRender '|' e`
for `e ∈ exts` (joints-only closure: every descendant's parent is the
root or another descendant), and on which the per-descendant relative
path split succeeds, skeleton extraction returns the root `Joint` first
and, for every later record, a strictly earlier record whose full
relative path equals its `parent_path` — a valid topological order, the
descendants being ordered by sorting their full paths. -/
theorem c4_skeleton_topological_order (q : SceneAttrs)
    (rsegs : List (List Char)) (exts : List (List (List Char)))
    (hr : rsegs ≠ []) (hrfree : ∀ s ∈ rsegs, '|' ∉ s)
    (hne : ∀ e ∈ exts, e ≠ []) (hfree : ∀ e ∈ exts, ∀ s ∈ e, '|' ∉ s)
    (hclosed : ∀ e ∈ exts, e.dropLast = [] ∨ e.dropLast ∈ exts)
    (hsplit : ∀ e ∈ exts,
        pySplit (tagRender '|' rsegs) (tagRender '|' rsegs ++ tagRender '|' e)
          = [[], tagRender '|' e]) :
    ∃ data : List Joint,
      get_skeleton_data q [tagRender '|' rsegs]
          (some (exts.map (fun e => tagRender '|' rsegs ++ tagRender '|' e))) = some data
      ∧ data.length = exts.length + 1
      ∧ data.head? = some (get_joint_data q (tagRender '|' rsegs))
      ∧ ∀ i, ∀ hi : i < data.length, 0 < i →
          ∃ p, data[i].parent_path = some p
            ∧ ∃ j, ∃ hj : j < data.length, j < i ∧ identityPath data[j] = p := by
  have hFchild : ∀ e ∈ exts,
      (match build_path_from_root (tagRender '|' rsegs ++ tagRender '|' e)
          (tagRender '|' rsegs) with
        | none => none
        | some current_path =>
          some { get_joint_data q (tagRender '|' rsegs ++ tagRender '|' e) with
                 parent_path := some (joinc '|' ((splitc '|' current_path).dropLast)) })
      = some (childRecord q rsegs e) := by
    intro e he
    rw [buildPath_child rsegs e hr hrfree (hsplit e he)]
    show some { get_joint_data q (tagRender '|' rsegs ++ tagRender '|' e) with
        parent_path := some (joinc '|'
          ((splitc '|' (tagRender '|' (rsegs.getLastD [] :: e))).dropLast)) }
      = some (childRecord q rsegs e)
    rw [parentPath_child (rsegs.getLastD []) e (hrfree _ (getLastD_mem rsegs [] hr))
      (hne e he) (hfree e he)]
    rfl
  have htot : ∀ x ∈ List.insertionSort (· ≤ ·)
      (exts.map (fun e => tagRender '|' rsegs ++ tagRender '|' e)),
      ((fun joint_path =>
        match build_path_from_root joint_path (tagRender '|' rsegs) with
        | none => none
        | some current_path =>
          some { get_joint_data q joint_path with
                 parent_path := some (joinc '|' ((splitc '|' current_path).dropLast)) })
        x).isSome = true := by
    intro x hx
    have hx2 : x ∈ exts.map (fun e => tagRender '|' rsegs ++ tagRender '|' e) :=
      (List.perm_insertionSort _ _).mem_iff.mp hx
    obtain ⟨e, he, rfl⟩ := List.mem_map.mp hx2
    show (match build_path_from_root (tagRender '|' rsegs ++ tagRender '|' e)
        (tagRender '|' rsegs) with
      | none => none
      | some current_path =>
        some { get_joint_data q (tagRender '|' rsegs ++ tagRender '|' e) with
               parent_path := some (joinc '|' ((splitc '|' current_path).dropLast)) }).isSome
      = true
    rw [hFchild e he]
    rfl
  obtain ⟨out, hout, hlen, hidx⟩ := mapOptAll_total _ _ htot
  refine ⟨get_joint_data q (tagRender '|' rsegs) :: out, ?_, ?_, rfl, ?_⟩
  · rw [get_skeleton_data_unfold, hout]
  · simp only [List.length_cons, hlen]
    rw [(List.perm_insertionSort _ _).length_eq]
    simp
  · intro i hi hpos
    cases i with
    | zero => omega
    | succ k =>
      have hk_out : k < out.length := by
        simp only [List.length_cons] at hi
        omega
      have hk_sorted : k < (List.insertionSort (· ≤ ·)
          (exts.map (fun e => tagRender '|' rsegs ++ tagRender '|' e))).length := by
        rw [← hlen]
        exact hk_out
      have hmem2 : (List.insertionSort (· ≤ ·)
            (exts.map (fun e => tagRender '|' rsegs ++ tagRender '|' e)))[k]
          ∈ exts.map (fun e => tagRender '|' rsegs ++ tagRender '|' e) :=
        (List.perm_insertionSort _ _).mem_iff.mp (List.getElem_mem hk_sorted)
      obtain ⟨e, he, hfe⟩ := List.mem_map.mp hmem2
      have hFk := hidx k hk_sorted hk_out
      rw [← hfe] at hFk
      rw [hFchild e he] at hFk
      have hrec : out[k] = childRecord q rsegs e := by
        injection hFk with h
        exact h.symm
      refine ⟨tagRender '|' (rsegs.getLastD [] :: e.dropLast), ?_, ?_⟩
      · simp only [List.getElem_cons_succ, hrec]
        rfl
      · rcases hclosed e he with hdrop | hdrop
        · refine ⟨0, by simp, by omega, ?_⟩
          show identityPath (get_joint_data q (tagRender '|' rsegs)) = _
          rw [hdrop, identityPath_root q rsegs hr hrfree]
        · have hene := hne e he
          have hdecomp : tagRender '|' rsegs ++ tagRender '|' e
              = (tagRender '|' rsegs ++ tagRender '|' e.dropLast)
                ++ '|' :: (e.getLast hene ++ []) := by
            conv_lhs =>
              rw [show e = e.dropLast ++ [e.getLast hene] from
                (List.dropLast_append_getLast hene).symm]
            rw [tagRender_append, ← List.append_assoc]
            rfl
          have hlt : (tagRender '|' rsegs ++ tagRender '|' e.dropLast)
              < tagRender '|' rsegs ++ tagRender '|' e := by
            rw [hdecomp]
            exact lt_append_cons _ '|' _
          have hq2mem : (tagRender '|' rsegs ++ tagRender '|' e.dropLast)
              ∈ List.insertionSort (· ≤ ·)
                (exts.map (fun e2 => tagRender '|' rsegs ++ tagRender '|' e2)) :=
            (List.perm_insertionSort _ _).mem_iff.mpr
              (List.mem_map.mpr ⟨e.dropLast, hdrop, rfl⟩)
          obtain ⟨j, hjlen, hjk, hjval⟩ := exists_earlier_of_sorted
            (List.sorted_insertionSort _ _) hq2mem hk_sorted hfe.symm hlt
          have hj_out : j < out.length := by
            rw [hlen]
            exact hjlen
          have hFj := hidx j hjlen hj_out
          rw [hjval] at hFj
          rw [hFchild e.dropLast hdrop] at hFj
          have hrecj : out[j] = childRecord q rsegs e.dropLast := by
            injection hFj with h
            exact h.symm
          refine ⟨j + 1, by simp only [List.length_cons]; omega, by omega, ?_⟩
          simp only [List.getElem_cons_succ, hrecj]
          exact identityPath_child q rsegs e.dropLast hr hrfree (hne e.dropLast hdrop)
            (hfree e.dropLast hdrop)

/-- C4 (witness): extraction order on the concrete hierarchy
`|a` with descendants `|a|c` and `|a|c|b`. -/
theorem c4_skeleton_topological_order_witness :
    (([['a']] : List (List Char)) ≠ []
      ∧ (∀ e ∈ ([[['c']], [['c'], ['b']]] : List (List (List Char))),
          e.dropLast = [] ∨ e.dropLast ∈ ([[['c']], [['c'], ['b']]] : List (List (List Char))))
      ∧ (∀ e ∈ ([[['c']], [['c'], ['b']]] : List (List (List Char))),
          pySplit (tagRender '|' [['a']]) (tagRender '|' [['a']] ++ tagRender '|' e)
            = [[], tagRender '|' e]))
    ∧ ∃ data : List Joint,
        get_skeleton_data attrsZero [tagRender '|' [['a']]]
            (some (([[['c']], [['c'], ['b']]] : List (List (List Char))).map
              (fun e => tagRender '|' [['a']] ++ tagRender '|' e))) = some data
        ∧ data.length = ([[['c']], [['c'], ['b']]] : List (List (List Char))).length + 1
        ∧ data.head? = some (get_joint_data attrsZero (tagRender '|' [['a']]))
        ∧ ∀ i, ∀ hi : i < data.length, 0 < i →
            ∃ p, data[i].parent_path = some p
              ∧ ∃ j, ∃ hj : j < data.length, j < i ∧ identityPath data[j] = p :=
  ⟨⟨by decide, by decide, by decide⟩,
    c4_skeleton_topological_order attrsZero [['a']] [[['c']], [['c'], ['b']]]
      (by decide) (by decide) (by decide) (by decide) (by decide) (by decide)⟩
